import Mathlib

/-!
Verification development for `teleport_qkd_custom.py`, a teleportation-based
BB84 QKD simulation.  The circuit built by `run_single_round` is embedded as a
list of gate operations, and the Aer backend is embedded as an exact
state-vector simulator over unnormalized integer amplitudes (every gate in the
program is H, X, CX or CZ, so all amplitudes stay integral up to a global
power of sqrt 2 that is uniform across measurement branches).  The
orchestration in `run_protocol` is embedded as explicit state passing over
Python values, with the random source and the backend's sampled measurement
outcome supplied as explicit streams.
-/

namespace TeleportQKD

/-- Gate and measurement operations appearing in the program's circuits:
Hadamard, bit-flip, controlled-X, controlled-Z, and measurement of a qubit
into a classical-bit slot. -/
inductive Op where
  | h (q : ℕ)
  | x (q : ℕ)
  | cx (a b : ℕ)
  | cz (a b : ℕ)
  | measure (q c : ℕ)
deriving DecidableEq, Repr

/-- Embedding of `prepare_bb84_state(qc, q, bit, basis)`: the list of gates it
appends to the circuit.  Mirrors the source's `if basis == 'Z'/elif 'X'`
structure; any other basis label appends nothing. -/
def prepare_bb84_state (bit : ℤ) (basis : String) (q : ℕ) : List Op :=
  if basis = "Z" then
    (if bit = 1 then [Op.x q] else [])
  else if basis = "X" then
    (if bit = 0 then [Op.h q] else [Op.x q, Op.h q])
  else []

/-- Embedding of `bell_pair(qc, a, b)`: Hadamard on `a`, then CX from `a`
to `b`. -/
def bell_pair (a b : ℕ) : List Op :=
  [Op.h a, Op.cx a b]

/-- Embedding of the optional Eve block in `run_single_round`.  `coin` stands
for the outcome of `random.random() < 0.5` and `eve_basis` for
`random.choice(['Z','X'])`.  When active: Hadamard on qubit 1 exactly when the
chosen basis is X, measurement of qubit 1 into classical slot 0, and the
Hadamard again exactly when the chosen basis is X. -/
def eveOps (use_eve coin : Bool) (eve_basis : String) : List Op :=
  if use_eve && coin then
    (if eve_basis = "X" then [Op.h 1] else []) ++
      [Op.measure 1 0] ++
      (if eve_basis = "X" then [Op.h 1] else [])
  else []

/-- Embedding of the receiver's final step in `run_single_round`: Hadamard on
qubit 2 when `bob_basis == 'X'`, then measurement of qubit 2 into classical
slot 2. -/
def bobMeasureOps (bob_basis : String) : List Op :=
  (if bob_basis = "X" then [Op.h 2] else []) ++ [Op.measure 2 2]

/-- Embedding of the full circuit assembled by `run_single_round`: Bell pair
on qubits 1 and 2, optional Eve block, Alice's preparation on qubit 0, Alice's
Bell measurement (CX 0 1, H 0, measure 0 into c0 and 1 into c1), Bob's
corrections (CX 1 2, CZ 0 2), and Bob's basis measurement. -/
def run_single_round_circuit (alice_bit : ℤ) (alice_basis bob_basis : String)
    (use_eve coin : Bool) (eve_basis : String) : List Op :=
  bell_pair 1 2 ++
    eveOps use_eve coin eve_basis ++
    prepare_bb84_state alice_bit alice_basis 0 ++
    [Op.cx 0 1, Op.h 0, Op.measure 0 0, Op.measure 1 1, Op.cx 1 2, Op.cz 0 2] ++
    bobMeasureOps bob_basis

/-- Index `i` with qubit `q`'s bit flipped, in the encoding where bit `q` of
the basis-state index is the value of qubit `q`. -/
def flipBit (i q : ℕ) : ℕ := i ^^^ (2 ^ q)

/-- One unitary gate applied to an (unnormalized, integer) 3-qubit amplitude
vector of length 8.  The Hadamard is applied without its 1/sqrt 2 factor; this
scales every measurement branch's squared norm by the same power of 2, so
relative outcome probabilities are unchanged. -/
def applyGate (op : Op) (st : List ℤ) : List ℤ :=
  match op with
  | Op.h q => (List.range 8).map fun i =>
      if i.testBit q then st.getD (flipBit i q) 0 - st.getD i 0
      else st.getD i 0 + st.getD (flipBit i q) 0
  | Op.x q => (List.range 8).map fun i => st.getD (flipBit i q) 0
  | Op.cx a b => (List.range 8).map fun i =>
      if i.testBit a then st.getD (flipBit i b) 0 else st.getD i 0
  | Op.cz a b => (List.range 8).map fun i =>
      if i.testBit a && i.testBit b then - st.getD i 0 else st.getD i 0
  | Op.measure _ _ => st

/-- Projection of the amplitude vector onto the subspace where qubit `q` has
value `v` (the collapse performed by a measurement with outcome `v`). -/
def project (q : ℕ) (v : Bool) (st : List ℤ) : List ℤ :=
  (List.range 8).map fun i => if i.testBit q == v then st.getD i 0 else 0

/-- A measurement branch: the collapsed amplitude vector together with the
three classical-bit slots `[c0, c1, c2]`. -/
abbrev Branch := List ℤ × List ℕ

/-- Exact simulation of a circuit: unitary gates map each branch's state;
each measurement splits every branch into the outcome-0 and outcome-1
branches, writing the outcome into the classical slot (overwriting it, as
Qiskit does). -/
def runOps : List Op → List Branch → List Branch
  | [], bs => bs
  | Op.measure q c :: rest, bs =>
      runOps rest (bs.flatMap fun b =>
        [(project q false b.1, b.2.set c 0), (project q true b.1, b.2.set c 1)])
  | op :: rest, bs => runOps rest (bs.map fun b => (applyGate op b.1, b.2))

/-- Initial branch: all three qubits in state 0, classical bits 0. -/
def initBranch : Branch := ([1, 0, 0, 0, 0, 0, 0, 0], [0, 0, 0])

/-- All measurement branches of a circuit run from the all-zero state. -/
def runCircuit (ops : List Op) : List Branch := runOps ops [initBranch]

/-- Squared norm of an unnormalized amplitude vector; a branch's probability
is its squared norm divided by the total over all branches, so a branch is
observable with positive probability iff its squared norm is positive. -/
def normSq (st : List ℤ) : ℤ := (st.map fun a => a * a).sum

/-- The Qiskit counts key for classical bits `[c0, c1, c2]`: with a single
classical register, `get_counts` renders the bitstring with classical bit 0
as the rightmost character (and no spaces), i.e. the digit list
`[c2, c1, c0]`. -/
def countsKey (cb : List ℕ) : List ℕ := cb.reverse

/-- Embedding of the extraction in `run_single_round`:
`key = key.replace(' ', ''); measured_bit = int(key[-1])` — the last character
of the counts key (the space removal is the identity for a single classical
register). -/
def measured_bit (cb : List ℕ) : ℕ := (countsKey cb).getLastD 0

/-- The value recorded in classical-bit slot 2, the slot written by the
receiver's measurement. -/
def bobSlot (cb : List ℕ) : ℕ := cb.getD 2 0

/-- Branches of a circuit that occur with positive probability. -/
def posBranches (ops : List Op) : List Branch :=
  (runCircuit ops).filter fun b => decide (0 < normSq b.1)

/-- The honest (no-Eve) round circuit; the Eve randomness is irrelevant since
`use_eve = false`. -/
def honestCircuit (bit : ℤ) (ab bb : String) : List Op :=
  run_single_round_circuit bit ab bb false false "Z"

/-- The model of `random.choice(['Z','X'])`: a uniform index into the
two-element list. -/
def choiceZX (j : Fin 2) : String := if j = 0 then "Z" else "X"

/-- A Python value stored in the per-round lists: an integer (a bit) or a
string (a basis label). -/
inductive PyVal where
  | int (n : ℤ)
  | str (s : String)
deriving DecidableEq, Repr

/-- An exception escaping `run_protocol`: `KeyError` from a dict lookup or
`IndexError` from indexing past the end of a list. -/
inductive PyErr where
  | keyError (k : String)
  | indexError
deriving DecidableEq, Repr

/-- The `custom_inputs` argument of `run_protocol`: either `None` (the
default) or a Python dict, modeled as an association list from string keys to
lists of values.  Python truthiness: `None` and the empty dict are falsy. -/
inductive CustomArg where
  | none
  | dict (entries : List (String × List PyVal))
deriving DecidableEq, Repr

/-- The random source and backend, supplied as explicit streams: `meas i` is
the bit `run_single_round` returns for round `i` (the backend's single-shot
sample, whose round-level distribution is analyzed separately by the circuit
model above); `bit i`, `aBasis i`, `bBasis i` are the outcomes of the three
`random.choice` calls of round `i`. -/
structure Rand where
  meas : ℕ → ℤ
  bit : ℕ → ℤ
  aBasis : ℕ → String
  bBasis : ℕ → String

/-- Python `d[k]` on a dict: the value at the first matching key, or
`KeyError`. -/
def lookupKey (d : List (String × List PyVal)) (k : String) :
    Except PyErr (List PyVal) :=
  match d.lookup k with
  | Option.some v => Except.ok v
  | Option.none => Except.error (PyErr.keyError k)

/-- Python `l[i]` on a list with a nonnegative index: the element, or
`IndexError` past the end. -/
def indexList (l : List PyVal) (i : ℕ) : Except PyErr PyVal :=
  match l.get? i with
  | Option.some v => Except.ok v
  | Option.none => Except.error PyErr.indexError

/-- The per-round input selection in `run_protocol`'s loop body: when
`custom_inputs` is truthy, `custom_inputs['alice_bits'][i]`,
`custom_inputs['alice_bases'][i]`, `custom_inputs['bob_bases'][i]` in that
order; otherwise the three `random.choice` draws. -/
def roundInputs (custom : CustomArg) (rng : Rand) (i : ℕ) :
    Except PyErr (PyVal × PyVal × PyVal) :=
  match custom with
  | CustomArg.none =>
      Except.ok (PyVal.int (rng.bit i), PyVal.str (rng.aBasis i),
        PyVal.str (rng.bBasis i))
  | CustomArg.dict d =>
      if d.isEmpty then
        Except.ok (PyVal.int (rng.bit i), PyVal.str (rng.aBasis i),
          PyVal.str (rng.bBasis i))
      else
        match lookupKey d "alice_bits" with
        | Except.error e => Except.error e
        | Except.ok abl =>
          match indexList abl i with
          | Except.error e => Except.error e
          | Except.ok ab =>
            match lookupKey d "alice_bases" with
            | Except.error e => Except.error e
            | Except.ok aBl =>
              match indexList aBl i with
              | Except.error e => Except.error e
              | Except.ok aB =>
                match lookupKey d "bob_bases" with
                | Except.error e => Except.error e
                | Except.ok bBl =>
                  match indexList bBl i with
                  | Except.error e => Except.error e
                  | Except.ok bB => Except.ok (ab, aB, bB)

/-- The COLLECTING loop of `run_protocol`, from round index `i` with `n`
rounds remaining, building `(alice_bits, alice_bases, bob_bases,
bob_results)` in round order.  On an exception the error is paired with the
index of the raising round, which is also the number of rounds whose
`run_single_round` call completed before the exception. -/
def collectLoop (custom : CustomArg) (rng : Rand) :
    ℕ → ℕ → Except (PyErr × ℕ) (List PyVal × List PyVal × List PyVal × List PyVal)
  | _, 0 => Except.ok ([], [], [], [])
  | i, n + 1 =>
    match roundInputs custom rng i with
    | Except.error e => Except.error (e, i)
    | Except.ok (a_bit, a_basis, b_basis) =>
      match collectLoop custom rng (i + 1) n with
      | Except.error e => Except.error e
      | Except.ok (bits, abases, bbases, results) =>
        Except.ok (a_bit :: bits, a_basis :: abases, b_basis :: bbases,
          PyVal.int (rng.meas i) :: results)

/-- The sifting loop of `run_protocol`: iterate
`zip(alice_bases, alice_bits, bob_bases, bob_results)` (truncating at the
shortest list, as `zip` does) and keep `(alice_bit, bob_result)` exactly when
the two bases are equal. -/
def siftRec : List PyVal → List PyVal → List PyVal → List PyVal →
    List PyVal × List PyVal
  | a_b :: l1, a_k :: l2, b_b :: l3, b_m :: l4 =>
    let rest := siftRec l1 l2 l3 l4
    if a_b = b_b then (a_k :: rest.1, b_m :: rest.2) else rest
  | _, _, _, _ => ([], [])

/-- Embedding of `sum(1 for x, y in zip(sifted_alice, sifted_bob) if x != y)`. -/
def mismatchCount : List PyVal → List PyVal → ℕ
  | x :: xs, y :: ys => (if x ≠ y then 1 else 0) + mismatchCount xs ys
  | _, _ => 0

/-- The dictionary `run_protocol` returns. -/
structure ProtocolResult where
  raw_rounds : ℕ
  sifted_length : ℕ
  qber : Option ℚ
  alice_bits : List PyVal
  bob_results : List PyVal
  alice_bases : List PyVal
  bob_bases : List PyVal
  sifted_alice : List PyVal
  sifted_bob : List PyVal
deriving DecidableEq, Repr

/-- The sifting and QBER computation at the end of `run_protocol`: sift, then
`qber = None` when the sifted key is empty, else the mismatch fraction. -/
def aggregate (num_rounds : ℕ)
    (bits abases bbases results : List PyVal) : ProtocolResult :=
  let s := siftRec abases bits bbases results
  { raw_rounds := num_rounds
    sifted_length := s.1.length
    qber := if s.1.length = 0 then Option.none
      else Option.some ((mismatchCount s.1 s.2 : ℚ) / (s.1.length : ℚ))
    alice_bits := bits
    bob_results := results
    alice_bases := abases
    bob_bases := bbases
    sifted_alice := s.1
    sifted_bob := s.2 }

/-- Embedding of `run_protocol(num_rounds, use_eve, custom_inputs)`.  The
`use_eve` flag only influences the backend's outcome distribution, which the
`rng.meas` stream abstracts, so it is threaded but unused here; the per-round
effect of Eve is covered by the circuit model. -/
def run_protocol (num_rounds : ℕ) (use_eve : Bool) (custom_inputs : CustomArg)
    (rng : Rand) : Except (PyErr × ℕ) ProtocolResult :=
  match collectLoop custom_inputs rng 0 num_rounds with
  | Except.error e => Except.error e
  | Except.ok (bits, abases, bbases, results) =>
    Except.ok (aggregate num_rounds bits abases bbases results)

/-- Specification-side count of positions where the two basis lists agree. -/
def countMatches : List PyVal → List PyVal → ℕ
  | a :: l1, b :: l2 => (if a = b then 1 else 0) + countMatches l1 l2
  | _, _ => 0

/-- Specification-side selection: the values at exactly the positions where
the two basis lists agree, in order. -/
def selectMatching : List PyVal → List PyVal → List PyVal → List PyVal
  | a :: l1, v :: l2, b :: l3 =>
    if a = b then v :: selectMatching l1 l2 l3 else selectMatching l1 l2 l3
  | _, _, _ => []

/-- The length of the shortest of the three supplied custom-input arrays. -/
def minLen3 (la lab lbb : List PyVal) : ℕ :=
  min la.length (min lab.length lbb.length)

/-- A concrete random source for witnesses: the backend always samples bit 0
and every `random.choice` returns its first option. -/
def rng0 : Rand :=
  { meas := fun _ => 0, bit := fun _ => 0,
    aBasis := fun _ => "Z", bBasis := fun _ => "Z" }

/-- A concrete custom-input dict whose `alice_bits` array (length 1) is
shorter than the two basis arrays (length 2). -/
def d0 : List (String × List PyVal) :=
  [("alice_bits", [PyVal.int 0]),
   ("alice_bases", [PyVal.str "Z", PyVal.str "Z"]),
   ("bob_bases", [PyVal.str "Z", PyVal.str "Z"])]

/-- The result of one default-input round under `rng0`: bases agree, so the
single round is sifted and the QBER is 0. -/
def r0 : ProtocolResult :=
  { raw_rounds := 1, sifted_length := 1, qber := Option.some 0,
    alice_bits := [PyVal.int 0], bob_results := [PyVal.int 0],
    alice_bases := [PyVal.str "Z"], bob_bases := [PyVal.str "Z"],
    sifted_alice := [PyVal.int 0], sifted_bob := [PyVal.int 0] }

/-- Every successful `collectLoop` over `n` rounds returns four lists of
length `n`. -/
theorem collectLoop_ok_lengths (custom : CustomArg) (rng : Rand) :
    ∀ (n i : ℕ) (out : List PyVal × List PyVal × List PyVal × List PyVal),
      collectLoop custom rng i n = Except.ok out →
      out.1.length = n ∧ out.2.1.length = n ∧ out.2.2.1.length = n ∧
        out.2.2.2.length = n := by
  intro n
  induction n with
  | zero =>
    intro i out h
    simp [collectLoop] at h
    simp [← h]
  | succ n ih =>
    intro i out h
    simp only [collectLoop] at h
    cases hri : roundInputs custom rng i with
    | error e => rw [hri] at h; simp at h
    | ok trip =>
      obtain ⟨a_bit, a_basis, b_basis⟩ := trip
      rw [hri] at h
      cases hcl : collectLoop custom rng (i + 1) n with
      | error e => rw [hcl] at h; simp at h
      | ok rest =>
        obtain ⟨bits, abases, bbases, results⟩ := rest
        rw [hcl] at h
        simp at h
        obtain ⟨h1, h2, h3, h4⟩ := ih (i + 1) (bits, abases, bbases, results) hcl
        simp [← h]
        exact ⟨h1, h2, h3, h4⟩

/-- The two sifted lists always have the same length. -/
theorem siftRec_length_eq :
    ∀ (l1 l2 l3 l4 : List PyVal),
      (siftRec l1 l2 l3 l4).1.length = (siftRec l1 l2 l3 l4).2.length := by
  intro l1
  induction l1 with
  | nil => intro l2 l3 l4; simp [siftRec]
  | cons a t1 ih =>
    intro l2 l3 l4
    cases l2 with
    | nil => simp [siftRec]
    | cons v t2 =>
      cases l3 with
      | nil => simp [siftRec]
      | cons b t3 =>
        cases l4 with
        | nil => simp [siftRec]
        | cons m t4 =>
          simp only [siftRec]
          split
          · simp [ih t2 t3 t4]
          · exact ih t2 t3 t4

/-- On equal-length lists, the code's sift is exactly the specification-side
selection of matching-basis positions, in order. -/
theorem siftRec_eq_selectMatching :
    ∀ (l1 l2 l3 l4 : List PyVal),
      l1.length = l2.length → l1.length = l3.length → l1.length = l4.length →
      (siftRec l1 l2 l3 l4).1 = selectMatching l1 l2 l3 ∧
        (siftRec l1 l2 l3 l4).2 = selectMatching l1 l4 l3 := by
  intro l1
  induction l1 with
  | nil =>
    intro l2 l3 l4 h2 h3 h4
    rw [List.length_nil] at h2 h3 h4
    rw [List.eq_nil_of_length_eq_zero h2.symm, List.eq_nil_of_length_eq_zero h3.symm,
      List.eq_nil_of_length_eq_zero h4.symm]
    simp [siftRec, selectMatching]
  | cons a t1 ih =>
    intro l2 l3 l4 h2 h3 h4
    cases l2 with
    | nil => simp at h2
    | cons v t2 =>
      cases l3 with
      | nil => simp at h3
      | cons b t3 =>
        cases l4 with
        | nil => simp at h4
        | cons m t4 =>
          simp only [List.length_cons, Nat.succ_inj] at h2 h3 h4
          obtain ⟨e1, e2⟩ := ih t2 t3 t4 h2 h3 h4
          simp only [siftRec, selectMatching]
          split
          · simp [e1, e2]
          · exact ⟨e1, e2⟩

/-- On equal-length lists, the sifted length is the number of positions where
the two basis lists agree. -/
theorem siftRec_length_eq_countMatches :
    ∀ (l1 l2 l3 l4 : List PyVal),
      l1.length = l2.length → l1.length = l4.length →
      (siftRec l1 l2 l3 l4).1.length = countMatches l1 l3 := by
  intro l1
  induction l1 with
  | nil =>
    intro l2 l3 l4 h2 h4
    simp [siftRec, countMatches]
  | cons a t1 ih =>
    intro l2 l3 l4 h2 h4
    cases l2 with
    | nil => simp at h2
    | cons v t2 =>
      cases l4 with
      | nil => simp at h4
      | cons m t4 =>
        cases l3 with
        | nil => simp [siftRec, countMatches]
        | cons b t3 =>
          simp only [List.length_cons, Nat.succ_inj] at h2 h4
          have e := ih t2 t3 t4 h2 h4
          simp only [siftRec, countMatches]
          split
          · simp only [List.length_cons, e]; omega
          · simp [e]

/-- The mismatch count is bounded by the length of the first list. -/
theorem mismatchCount_le_length :
    ∀ (xs ys : List PyVal), mismatchCount xs ys ≤ xs.length := by
  intro xs
  induction xs with
  | nil => intro ys; simp [mismatchCount]
  | cons x t ih =>
    intro ys
    cases ys with
    | nil => simp [mismatchCount]
    | cons y t2 =>
      simp only [mismatchCount, List.length_cons]
      have := ih t2
      split <;> omega

/-- A successful dict lookup implies the dict is truthy (nonempty). -/
theorem lookup_ne_nil {d : List (String × List PyVal)} {k : String}
    {v : List PyVal} (h : d.lookup k = Option.some v) : d.isEmpty = false := by
  cases d with
  | nil => simp [List.lookup] at h
  | cons e t => simp [List.isEmpty]

/-- Below the shortest custom array, the loop body's three indexed reads all
succeed. -/
theorem roundInputs_dict_ok (rng : Rand) (d : List (String × List PyVal))
    (la lab lbb : List PyVal)
    (h1 : d.lookup "alice_bits" = Option.some la)
    (h2 : d.lookup "alice_bases" = Option.some lab)
    (h3 : d.lookup "bob_bases" = Option.some lbb)
    (i : ℕ) (hi : i < minLen3 la lab lbb) :
    roundInputs (CustomArg.dict d) rng i =
      Except.ok (la.getD i (PyVal.int 0), lab.getD i (PyVal.int 0),
        lbb.getD i (PyVal.int 0)) := by
  have hia : i < la.length := lt_of_lt_of_le hi (Nat.min_le_left _ _)
  have hib : i < lab.length :=
    lt_of_lt_of_le hi (le_trans (Nat.min_le_right _ _) (Nat.min_le_left _ _))
  have hic : i < lbb.length :=
    lt_of_lt_of_le hi (le_trans (Nat.min_le_right _ _) (Nat.min_le_right _ _))
  simp only [roundInputs, lookup_ne_nil h1, Bool.false_eq_true, if_false,
    lookupKey, h1, h2, h3, indexList]
  rw [List.get?_eq_get hia, List.get?_eq_get hib, List.get?_eq_get hic]
  simp [List.getD, List.get?_eq_get, hia, hib, hic]

/-- At the index equal to the shortest custom array's length, the loop body
raises `IndexError`. -/
theorem roundInputs_dict_err (rng : Rand) (d : List (String × List PyVal))
    (la lab lbb : List PyVal)
    (h1 : d.lookup "alice_bits" = Option.some la)
    (h2 : d.lookup "alice_bases" = Option.some lab)
    (h3 : d.lookup "bob_bases" = Option.some lbb) :
    roundInputs (CustomArg.dict d) rng (minLen3 la lab lbb) =
      Except.error PyErr.indexError := by
  set m := minLen3 la lab lbb with hm
  have hma : m ≤ la.length := Nat.min_le_left _ _
  have hmb : m ≤ lab.length :=
    le_trans (Nat.min_le_right _ _) (Nat.min_le_left _ _)
  have hmc : m ≤ lbb.length :=
    le_trans (Nat.min_le_right _ _) (Nat.min_le_right _ _)
  have hcase : la.length = m ∨ lab.length = m ∨ lbb.length = m := by
    rcases min_choice la.length (min lab.length lbb.length) with h | h
    · left; rw [hm, minLen3]; omega
    · rcases min_choice lab.length lbb.length with h' | h'
      · right; left; rw [hm, minLen3]; omega
      · right; right; rw [hm, minLen3]; omega
  simp only [roundInputs, lookup_ne_nil h1, Bool.false_eq_true, if_false,
    lookupKey, h1, h2, h3, indexList]
  rcases hcase with hca | hcb | hcc
  · rw [List.get?_eq_none.mpr (le_of_eq hca)]
  · have hlta : m < la.length ∨ la.length = m := by omega
    rcases hlta with hlt | heq
    · rw [List.get?_eq_get hlt, List.get?_eq_none.mpr (le_of_eq hcb)]
    · rw [List.get?_eq_none.mpr (le_of_eq heq)]
  · rcases Nat.lt_or_ge m la.length with hlt | hge
    · rw [List.get?_eq_get hlt]
      rcases Nat.lt_or_ge m lab.length with hlt2 | hge2
      · rw [List.get?_eq_get hlt2, List.get?_eq_none.mpr (le_of_eq hcc)]
      · rw [List.get?_eq_none.mpr hge2]
    · rw [List.get?_eq_none.mpr hge]

/-- When some custom array is shorter than the remaining round count, the
COLLECTING loop runs every round below the shortest length and then raises
`IndexError` at that index. -/
theorem collectLoop_dict_short (rng : Rand) (d : List (String × List PyVal))
    (la lab lbb : List PyVal)
    (h1 : d.lookup "alice_bits" = Option.some la)
    (h2 : d.lookup "alice_bases" = Option.some lab)
    (h3 : d.lookup "bob_bases" = Option.some lbb) :
    ∀ (k i : ℕ), i ≤ minLen3 la lab lbb → minLen3 la lab lbb < i + k →
      collectLoop (CustomArg.dict d) rng i k =
        Except.error (PyErr.indexError, minLen3 la lab lbb) := by
  intro k
  induction k with
  | zero => intro i hle hlt; omega
  | succ k ih =>
    intro i hle hlt
    rcases eq_or_lt_of_le hle with heq | hlt2
    · subst heq
      simp only [collectLoop, roundInputs_dict_err rng d la lab lbb h1 h2 h3]
    · simp only [collectLoop,
        roundInputs_dict_ok rng d la lab lbb h1 h2 h3 i hlt2,
        ih (i + 1) (by omega) (by omega)]

/-- The concrete one-round default run used by the orchestrator witnesses. -/
theorem run_protocol_one_eq : run_protocol 1 false CustomArg.none rng0 =
    Except.ok r0 := by
  show Except.ok (aggregate 1 [PyVal.int 0] [PyVal.str "Z"] [PyVal.str "Z"]
    [PyVal.int 0]) = Except.ok r0
  simp only [aggregate, siftRec, mismatchCount, r0]
  norm_num [ProtocolResult.mk.injEq]

/-- An empty dict behaves as `None` round by round. -/
theorem collectLoop_emptyDict (rng : Rand) :
    ∀ (k i : ℕ), collectLoop (CustomArg.dict []) rng i k =
      collectLoop CustomArg.none rng i k := by
  intro k
  induction k with
  | zero => intro i; rfl
  | succ k ih =>
    intro i
    simp only [collectLoop, ih (i + 1)]
    rfl

/-- The default (random-choice) path of the loop never raises. -/
theorem collectLoop_none_ok (rng : Rand) :
    ∀ (k i : ℕ), ∃ out, collectLoop CustomArg.none rng i k = Except.ok out := by
  intro k
  induction k with
  | zero => intro i; exact ⟨([], [], [], []), rfl⟩
  | succ k ih =>
    intro i
    obtain ⟨⟨bits, abases, bbases, results⟩, hout⟩ := ih (i + 1)
    refine ⟨(PyVal.int (rng.bit i) :: bits, PyVal.str (rng.aBasis i) :: abases,
      PyVal.str (rng.bBasis i) :: bbases, PyVal.int (rng.meas i) :: results), ?_⟩
    simp only [collectLoop, roundInputs, hout]

/-- C1: the claim says `run_single_round`'s returned measured bit equals
`alice_bit` with probability 1 when the bases agree and Eve is off.  The code
computes it as `int(key[-1])` on the Qiskit counts key, whose last character
is classical bit 0 (Alice's Bell-measurement bit), not classical bit 2 (the
receiver's measurement): at `alice_bit = 0`, `Z`/`Z`, no Eve, a
positive-probability branch yields measured bit 1, refuting the claim for the
code as written; at the same time classical slot 2 equals `alice_bit` in
every positive-probability branch for all four matching-basis cases, so the
claim correctly describes the intended (slot-2) value and the code's
extraction is the slip. -/
theorem claim_C1 :
    ((posBranches (honestCircuit 0 "Z" "Z")).any
        fun b => measured_bit b.2 == 1) = true ∧
    ((posBranches (honestCircuit 0 "Z" "Z")).all
        fun b => bobSlot b.2 == 0) = true ∧
    ((posBranches (honestCircuit 1 "Z" "Z")).all
        fun b => bobSlot b.2 == 1) = true ∧
    ((posBranches (honestCircuit 0 "X" "X")).all
        fun b => bobSlot b.2 == 0) = true ∧
    ((posBranches (honestCircuit 1 "X" "X")).all
        fun b => bobSlot b.2 == 1) = true := by
  decide

/-- C2: the claim says the round runner takes the most frequent counts
outcome and extracts the value in classical-bit slot 2 (the receiver's
measurement) as `bobMeasuredBit`.  The code takes the last character of the
counts key, which under Qiskit's ordering (classical bit 0 rightmost) is
classical bit 0, not slot 2: in the honest round `alice_bit = 1`, `Z`/`Z`, a
positive-probability branch has a counts key whose last character differs
from slot 2, and on every 3-bit record the code's extraction returns
classical bit 0. -/
theorem claim_C2 :
    ((posBranches (honestCircuit 1 "Z" "Z")).any
        fun b => measured_bit b.2 != bobSlot b.2) = true ∧
    (∀ c0 c1 c2 : ℕ, measured_bit [c0, c1, c2] = c0) := by
  refine ⟨by decide, fun c0 c1 c2 => rfl⟩

/-- C3: for every completed protocol run, the two sifted lists have equal
length, that length is the number of rounds whose bases agree, and the
sifted lists are exactly the matching-basis rounds' bits in round order. -/
theorem claim_C3 (n : ℕ) (eve : Bool) (custom : CustomArg) (rng : Rand)
    (r : ProtocolResult) (h : run_protocol n eve custom rng = Except.ok r) :
    r.alice_bases.length = r.raw_rounds ∧
    r.bob_bases.length = r.raw_rounds ∧
    r.sifted_length = r.sifted_alice.length ∧
    r.sifted_alice.length = r.sifted_bob.length ∧
    r.sifted_alice.length = countMatches r.alice_bases r.bob_bases ∧
    r.sifted_alice = selectMatching r.alice_bases r.alice_bits r.bob_bases ∧
    r.sifted_bob = selectMatching r.alice_bases r.bob_results r.bob_bases := by
  unfold run_protocol at h
  cases hcl : collectLoop custom rng 0 n with
  | error e => rw [hcl] at h; simp at h
  | ok out =>
    obtain ⟨bits, abases, bbases, results⟩ := out
    rw [hcl] at h
    simp at h
    obtain ⟨hb, ha, hbb, hr⟩ := collectLoop_ok_lengths custom rng n 0
      (bits, abases, bbases, results) hcl
    simp at hb ha hbb hr
    subst h
    have hlen1 : abases.length = bits.length := by rw [ha, hb]
    have hlen2 : abases.length = bbases.length := by rw [ha, hbb]
    have hlen3 : abases.length = results.length := by rw [ha, hr]
    obtain ⟨e1, e2⟩ := siftRec_eq_selectMatching abases bits bbases results
      hlen1 hlen2 hlen3
    refine ⟨by simp [aggregate, ha], by simp [aggregate, hbb], ?_, ?_, ?_, ?_, ?_⟩
    · simp [aggregate]
    · simp [aggregate, siftRec_length_eq]
    · simp [aggregate,
        siftRec_length_eq_countMatches abases bits bbases results hlen1 hlen3]
    · simp [aggregate, e1]
    · simp [aggregate, e2]

/-- Witness for C3 at the concrete one-round default run. -/
theorem claim_C3_witness :
    run_protocol 1 false CustomArg.none rng0 = Except.ok r0 ∧
    (r0.alice_bases.length = r0.raw_rounds ∧
     r0.bob_bases.length = r0.raw_rounds ∧
     r0.sifted_length = r0.sifted_alice.length ∧
     r0.sifted_alice.length = r0.sifted_bob.length ∧
     r0.sifted_alice.length = countMatches r0.alice_bases r0.bob_bases ∧
     r0.sifted_alice = selectMatching r0.alice_bases r0.alice_bits r0.bob_bases ∧
     r0.sifted_bob = selectMatching r0.alice_bases r0.bob_results r0.bob_bases) :=
  ⟨run_protocol_one_eq,
    claim_C3 1 false CustomArg.none rng0 r0 run_protocol_one_eq⟩

/-- C4: for every completed protocol run, `qber` is `None` when the sifted
key is empty, and otherwise equals the mismatch count divided by the sifted
length, a value in [0, 1]. -/
theorem claim_C4 (n : ℕ) (eve : Bool) (custom : CustomArg) (rng : Rand)
    (r : ProtocolResult) (h : run_protocol n eve custom rng = Except.ok r) :
    (r.sifted_alice.length = 0 → r.qber = Option.none) ∧
    (r.sifted_alice.length ≠ 0 →
      r.qber = Option.some
        ((mismatchCount r.sifted_alice r.sifted_bob : ℚ) /
          (r.sifted_alice.length : ℚ))) ∧
    (∀ q : ℚ, r.qber = Option.some q → 0 ≤ q ∧ q ≤ 1) := by
  unfold run_protocol at h
  cases hcl : collectLoop custom rng 0 n with
  | error e => rw [hcl] at h; simp at h
  | ok out =>
    obtain ⟨bits, abases, bbases, results⟩ := out
    rw [hcl] at h
    simp at h
    subst h
    refine ⟨?_, ?_, ?_⟩
    · intro h0
      simp [aggregate] at h0 ⊢
      simp [h0]
    · intro h0
      simp [aggregate] at h0 ⊢
      simp [h0]
    · intro q hq
      simp [aggregate] at hq
      obtain ⟨hne, hv⟩ := hq
      have h0 : (siftRec abases bits bbases results).1.length ≠ 0 := by
        intro hz
        exact hne (List.length_eq_zero.mp hz)
      have hle : mismatchCount (siftRec abases bits bbases results).1
          (siftRec abases bits bbases results).2 ≤
          (siftRec abases bits bbases results).1.length :=
        mismatchCount_le_length _ _
      have hpos : (0 : ℚ) <
          ((siftRec abases bits bbases results).1.length : ℚ) := by
        exact_mod_cast Nat.pos_of_ne_zero h0
      constructor
      · rw [← hv]
        positivity
      · rw [← hv]
        rw [div_le_one hpos]
        exact_mod_cast hle

/-- Witness for C4 at the concrete one-round default run. -/
theorem claim_C4_witness :
    run_protocol 1 false CustomArg.none rng0 = Except.ok r0 ∧
    ((r0.sifted_alice.length = 0 → r0.qber = Option.none) ∧
     (r0.sifted_alice.length ≠ 0 →
       r0.qber = Option.some
         ((mismatchCount r0.sifted_alice r0.sifted_bob : ℚ) /
           (r0.sifted_alice.length : ℚ))) ∧
     (∀ q : ℚ, r0.qber = Option.some q → 0 ≤ q ∧ q ≤ 1)) :=
  ⟨run_protocol_one_eq,
    claim_C4 1 false CustomArg.none rng0 r0 run_protocol_one_eq⟩

/-- C5 counterexample: with `num_rounds = 2` and an `alice_bits` array of
length 1, `run_protocol` raises `IndexError` only after one round has fully
executed (the second component of the error records how many loop iterations
completed before the exception) — so the claim that it fails fast with a
descriptive error before any round executes is false of the code. -/
theorem claim_C5_counterexample :
    run_protocol 2 false (CustomArg.dict d0) rng0 =
      Except.error (PyErr.indexError, 1) ∧ (1 : ℕ) ≠ 0 :=
  ⟨rfl, by decide⟩

/-- C5 amended: when the supplied dict has the three expected keys and its
shortest array is shorter than `num_rounds`, the orchestrator does not
validate up front: it executes every round below the shortest length and then
raises a plain `IndexError` mid-run at that index. -/
theorem claim_C5_amended (n : ℕ) (eve : Bool) (rng : Rand)
    (d : List (String × List PyVal)) (la lab lbb : List PyVal)
    (h1 : d.lookup "alice_bits" = Option.some la)
    (h2 : d.lookup "alice_bases" = Option.some lab)
    (h3 : d.lookup "bob_bases" = Option.some lbb)
    (hm : minLen3 la lab lbb < n) :
    run_protocol n eve (CustomArg.dict d) rng =
      Except.error (PyErr.indexError, minLen3 la lab lbb) := by
  unfold run_protocol
  rw [collectLoop_dict_short rng d la lab lbb h1 h2 h3 n 0 (Nat.zero_le _)
    (by omega)]

/-- Witness for the amended C5 at the concrete short dict `d0`. -/
theorem claim_C5_amended_witness :
    d0.lookup "alice_bits" = Option.some [PyVal.int 0] ∧
    d0.lookup "alice_bases" = Option.some [PyVal.str "Z", PyVal.str "Z"] ∧
    d0.lookup "bob_bases" = Option.some [PyVal.str "Z", PyVal.str "Z"] ∧
    minLen3 [PyVal.int 0] [PyVal.str "Z", PyVal.str "Z"]
      [PyVal.str "Z", PyVal.str "Z"] < 2 ∧
    run_protocol 2 false (CustomArg.dict d0) rng0 =
      Except.error (PyErr.indexError,
        minLen3 [PyVal.int 0] [PyVal.str "Z", PyVal.str "Z"]
          [PyVal.str "Z", PyVal.str "Z"]) :=
  ⟨rfl, rfl, rfl, by decide,
    claim_C5_amended 2 false rng0 d0 _ _ _ rfl rfl rfl (by decide)⟩

/-- C6 counterexample: the eavesdropper block measures qubit 1, but every
receiver-side operation — and in particular the receiver's measurement — acts
on qubit 2, so the qubit Eve measures is the sender's half of the entangled
pair, not (as the claim says) the receiver's half. -/
theorem claim_C6_counterexample :
    eveOps true true "Z" = [Op.measure 1 0] ∧
    bobMeasureOps "Z" = [Op.measure 2 2] ∧ (1 : ℕ) ≠ 2 :=
  ⟨rfl, rfl, by decide⟩

/-- C6 amended: with `eveActive` true the eavesdropper block is inserted only
when the probability-0.5 coin is true, and then it applies a Hadamard to
qubit 1 exactly when the chosen basis is X, measures qubit 1 (the sender's
half of the entangled pair, not the receiver's) into classical slot 0, and
applies the Hadamard again exactly when the chosen basis is X; with
`eveActive` false, or the coin false, no operation is added.  Under the
uniform model of the two random draws, the block triggers on exactly half the
sample space and, among triggering draws, the Z and X basis choices are
equinumerous. -/
theorem claim_C6_amended :
    (∀ basis : String, eveOps true true basis =
      (if basis = "X" then [Op.h 1] else []) ++ [Op.measure 1 0] ++
        (if basis = "X" then [Op.h 1] else [])) ∧
    (∀ (coin : Bool) (basis : String), eveOps false coin basis = []) ∧
    (∀ basis : String, eveOps true false basis = []) ∧
    ((Finset.univ.filter fun s : Bool × Fin 2 => s.1 = true).card * 2 =
      Fintype.card (Bool × Fin 2)) ∧
    ((Finset.univ.filter
        fun s : Bool × Fin 2 => s.1 = true ∧ choiceZX s.2 = "Z").card =
      (Finset.univ.filter
        fun s : Bool × Fin 2 => s.1 = true ∧ choiceZX s.2 = "X").card) := by
  refine ⟨fun basis => by simp [eveOps], fun coin basis => by simp [eveOps],
    fun basis => by simp [eveOps], by decide, by decide⟩

/-- C7: `prepare_bb84_state` emits exactly the prescribed gates for the four
valid (bit, basis) pairs: nothing for (0, Z), a bit-flip for (1, Z), a
Hadamard for (0, X), and a bit-flip followed by a Hadamard for (1, X). -/
theorem claim_C7 (q : ℕ) :
    prepare_bb84_state 0 "Z" q = [] ∧
    prepare_bb84_state 1 "Z" q = [Op.x q] ∧
    prepare_bb84_state 0 "X" q = [Op.h q] ∧
    prepare_bb84_state 1 "X" q = [Op.x q, Op.h q] :=
  ⟨rfl, rfl, rfl, rfl⟩

/-- C8: for any basis label outside {Z, X}, `prepare_bb84_state` silently
adds no gate, whatever the bit; it is a total function, so no error is
raised. -/
theorem claim_C8 (bit : ℤ) (q : ℕ) (basis : String)
    (hz : basis ≠ "Z") (hx : basis ≠ "X") :
    prepare_bb84_state bit basis q = [] := by
  simp [prepare_bb84_state, hz, hx]

/-- Witness for C8 at the out-of-domain basis label "Y". -/
theorem claim_C8_witness :
    ("Y" : String) ≠ "Z" ∧ ("Y" : String) ≠ "X" ∧
    prepare_bb84_state 7 "Y" 3 = [] :=
  ⟨by decide, by decide, claim_C8 7 3 "Y" (by decide) (by decide)⟩

/-- C9: with `num_rounds = 0` the orchestrator raises nothing and returns a
result with zero sifted length and undefined (None) QBER, for every Eve flag,
custom-input argument and random source. -/
theorem claim_C9 (eve : Bool) (custom : CustomArg) (rng : Rand) :
    run_protocol 0 eve custom rng = Except.ok
      { raw_rounds := 0, sifted_length := 0, qber := Option.none,
        alice_bits := [], bob_results := [], alice_bases := [],
        bob_bases := [], sifted_alice := [], sifted_bob := [] } := rfl

/-- C10: a falsy `custom_inputs` value (the empty dict) takes the
random-choice path: the run is identical to the run with `custom_inputs`
absent (`None`), for every round count, Eve flag and random source, and that
run always returns normally, never touching the mapping. -/
theorem claim_C10 (n : ℕ) (eve : Bool) (rng : Rand) :
    run_protocol n eve (CustomArg.dict []) rng =
      run_protocol n eve CustomArg.none rng ∧
    ∃ r, run_protocol n eve CustomArg.none rng = Except.ok r := by
  constructor
  · unfold run_protocol
    rw [collectLoop_emptyDict rng n 0]
  · obtain ⟨⟨bits, abases, bbases, results⟩, hout⟩ := collectLoop_none_ok rng n 0
    exact ⟨aggregate n bits abases bbases results, by
      unfold run_protocol; rw [hout]⟩

end TeleportQKD
